import Mathlib

/-!
Verification of the styled-text layout and tesselation engine
(`core/src/text_engine/`) of the webgpu-template repository.

The embedding is shallow: every Rust function of the text engine is
translated into an executable Lean definition.  Machine floats (`f32`,
`f64`) are modelled by `ℚ`: every finite binary float is an exact
rational, and all float operations performed by the engine on the inputs
considered here (addition, subtraction, multiplication, division,
comparison) are modelled by the corresponding exact rational operations.
Rust strings are modelled as `List Char`; the engine is ASCII-oriented,
and for ASCII text Rust byte indices coincide with character indices.
Code that can panic (out-of-bounds indexing, `unwrap`) is modelled with
`Option`, `none` standing for a panic; loops whose termination is not
structural carry an explicit fuel parameter, `none` standing for
non-termination when no fuel suffices.
-/

namespace TextEngine

/-- Two-dimensional vector (`glam::Vec2` as used by the engine), components
modelled as exact rationals. -/
structure Vec2 where
  x : ℚ
  y : ℚ
deriving DecidableEq, Repr

def Vec2.new (x y : ℚ) : Vec2 := ⟨x, y⟩

/-- Linear-space RGBA color (`utils::colors::Color`); the text engine passes
colors through opaquely. -/
structure Color where
  r : ℚ
  g : ℚ
  b : ℚ
  a : ℚ
deriving DecidableEq, Repr

def Color.WHITE : Color := ⟨1, 1, 1, 1⟩

/-- `Color → [f32; 4]` conversion used when a color is stored into a vertex. -/
def Color.toVec4 (c : Color) : ℚ × ℚ × ℚ × ℚ := (c.r, c.g, c.b, c.a)

/-- Rectangle `utils::Bounds { left, top, right, bottom }`. -/
structure Bounds where
  left : ℚ
  top : ℚ
  right : ℚ
  bottom : ℚ
deriving DecidableEq, Repr

def Bounds.width (b : Bounds) : ℚ := b.right - b.left

def Bounds.height (b : Bounds) : ℚ := b.bottom - b.top

def Bounds.default : Bounds := ⟨0, 0, 0, 0⟩

/-- `Bounds::transformed(pos_x, pos_y, scale_x, scale_y)`. -/
def Bounds.transformed (b : Bounds) (posX posY scaleX scaleY : ℚ) : Bounds :=
  { left := b.left * scaleX + posX
    right := b.right * scaleX + posX
    top := b.top * scaleY + posY
    bottom := b.bottom * scaleY + posY }

/-- `Bounds::normalized_within(other_bounds)`.  Rust divides `f32`s; the
rational model maps the (unreachable for the engine's callers)
zero-width container to `0` where Rust would produce `inf`/`NaN`. -/
def Bounds.normalizedWithin (b other : Bounds) : Bounds :=
  { left := (b.left - other.left) / other.width
    top := (b.top - other.bottom) / other.height
    right := (b.right - other.left) / other.width
    bottom := (b.bottom - other.bottom) / other.height }

def Bounds.getTopLeft (b : Bounds) : Vec2 := ⟨b.left, b.top⟩

def Bounds.getTopRight (b : Bounds) : Vec2 := ⟨b.right, b.top⟩

def Bounds.getBottomLeft (b : Bounds) : Vec2 := ⟨b.left, b.bottom⟩

def Bounds.getBottomRight (b : Bounds) : Vec2 := ⟨b.right, b.bottom⟩

/-- `font_data::Glyph`: advance plus optional plane/atlas rectangles. -/
structure Glyph where
  advance : ℚ
  planeBounds : Option Bounds
  atlasBounds : Option Bounds
deriving DecidableEq, Repr

/-- `font_data::GlyphWithUnicode`: a glyph as it appears in the source atlas
description, before the ASCII table is built. -/
structure GlyphWithUnicode where
  unicode : Nat
  advance : ℚ
  planeBounds : Option Bounds
  atlasBounds : Option Bounds
deriving DecidableEq, Repr

def GlyphWithUnicode.toGlyph (g : GlyphWithUnicode) : Glyph :=
  { advance := g.advance, planeBounds := g.planeBounds, atlasBounds := g.atlasBounds }

/-- `font_data::FontMetrics`. -/
structure FontMetrics where
  emSize : ℚ
  lineHeight : ℚ
  ascender : ℚ
  descender : ℚ
  underlineY : ℚ
  underlineThickness : ℚ
deriving DecidableEq, Repr

/-- `font_data::FontData`: metrics plus the fixed 128-entry ASCII glyph
table.  The Rust type is `[Glyph; 128]`; the model carries the length
invariant explicitly. -/
structure FontData where
  metrics : FontMetrics
  glyphs : List Glyph
  glyphs_length : glyphs.length = 128

/-- First phase of `deserialize_ascii_glyphs`: fold the source glyph list
into a 128-slot table, storing each glyph with `unicode < 128` at the index
equal to its code point (later duplicates overwrite earlier ones) and
dropping all others. -/
def loadSlots (v : List GlyphWithUnicode) : List (Option Glyph) :=
  v.foldl
    (fun slots g =>
      if g.unicode < 128 then slots.set g.unicode (some g.toGlyph) else slots)
    (List.replicate 128 (none : Option Glyph))

/-- `font_data::deserialize_ascii_glyphs`: build the ASCII table, back-fill
every empty slot with the glyph loaded for `'?'` (code point 63), and panic
(`none`) when no `'?'` glyph was loaded (`glyphs['?' as usize].unwrap()`). -/
def deserializeAsciiGlyphs (v : List GlyphWithUnicode) : Option (List Glyph) :=
  let slots := loadSlots v
  match slots.getD 63 none with
  | none => none
  | some qmark => some (slots.map (fun g => g.getD qmark))

/-- `interpolation_value::InterpolationValue`. -/
inductive InterpolationValue where
  | String (s : String)
  | Integer (i : Int)
  | Float (q : ℚ)
  | Boolean (b : Bool)
deriving DecidableEq, Repr

/-- Round a rational to the nearest integer, ties to even — the rounding
Rust's float formatting applies to the exact decimal expansion. -/
def roundHalfEven (q : ℚ) : Int :=
  let f := ⌊q⌋
  if q - f < 1 / 2 then f
  else if (1 : ℚ) / 2 < q - f then f + 1
  else if f % 2 = 0 then f else f + 1

/-- Two-digit decimal rendering of a natural number below 100. -/
def padTwo (n : Nat) : String :=
  if n < 10 then "0" ++ toString n else toString n

/-- Rust `format!("{:.2}", f)` on the exact rational value of `f`. -/
def formatFixedTwo (q : ℚ) : String :=
  let n := roundHalfEven (q * 100)
  let sign := if q < 0 then "-" else ""
  sign ++ toString (n.natAbs / 100) ++ "." ++ padTwo (n.natAbs % 100)

/-- Rust `str::trim_end_matches('0')`. -/
def trimTrailingZeros (s : List Char) : List Char :=
  (s.reverse.dropWhile (fun c => c = '0')).reverse

/-- Rust `str::trim_end_matches('.')`. -/
def trimTrailingDot (s : List Char) : List Char :=
  (s.reverse.dropWhile (fun c => c = '.')).reverse

/-- `InterpolationValue::as_string`.  A `Float` value is an integer exactly
when its fractional part is zero (`f.fract() == 0.0`), i.e. when the
rational has denominator 1. -/
def asString : InterpolationValue → String
  | .String s => s
  | .Integer i => toString i
  | .Float q =>
      if q.den = 1 then toString q.num
      else String.mk (trimTrailingDot (trimTrailingZeros (formatFixedTwo q).data))
  | .Boolean b => if b then "true" else "false"

/-- `variable_enum::VariableStorage`, covering the repository's two
implementations: `EmptyVariableStorage` (name table always misses) and
`EnumVariableStorage<T>` (a fixed name table `T::from_name` plus one
optional value slot per variant).  `fromName` models `T::from_name`
composed with `to_index`; the `VariableEnum` macro guarantees every
produced index is below `values.length`. -/
structure VariableStorage where
  fromName : String → Option Nat
  values : List (Option InterpolationValue)

/-- `VariableStorage::get_value`:
`T::from_name(name).and_then(|var| self.values[var.to_index()].as_ref())`. -/
def VariableStorage.getValue (vs : VariableStorage) (name : String) : Option InterpolationValue :=
  match vs.fromName name with
  | none => none
  | some i => vs.values.getD i none

/-- `VariableStorage::set_value_by_name`: returns the updated storage and
`true` exactly when the name table recognises the name. -/
def VariableStorage.setValueByName (vs : VariableStorage) (name : String)
    (v : InterpolationValue) : VariableStorage × Bool :=
  match vs.fromName name with
  | some i => ({ vs with values := vs.values.set i (some v) }, true)
  | none => (vs, false)

/-- `variable_enum::EmptyVariableStorage`: always misses, never recognises. -/
def EmptyVariableStorage : VariableStorage := ⟨fun _ => none, []⟩

/-- `text_segment::TextSegment`: template text plus a style index. -/
structure TextSegment where
  template : List Char
  styleId : Nat
deriving DecidableEq, Repr

def TextSegment.new (template : List Char) (styleId : Nat) : TextSegment :=
  ⟨template, styleId⟩

/-- The loop of `TextSegment::get_text`, fuel-indexed; `none` means the
loop panicked or did not finish within `fuel` iterations.  The Rust loop is

  while pos < result.len() {
    if let Some(start) = result[pos..].find('\x7b') {        -- start relative to pos
      if let Some(end) = result[start..].find('\x7d') {      -- but used as absolute here
        ... replace result[start..=start+end], pos = start + replacement.len()
      } else { pos += 1 }
    }                                                        -- no else: state unchanged
  }

Each branch is translated literally: when no opening brace is found after
`pos` the body changes nothing and the loop repeats with identical state,
modelled by recursing on the same state with less fuel; when the closing
brace found from (absolute) `start` is at `start` itself, the Rust slice
`&result[start + 1..start]` panics, modelled by `none`. -/
def getTextLoop (vars : VariableStorage) : Nat → List Char → Nat → Option (List Char)
  | 0, _, _ => none
  | fuel + 1, result, pos =>
    if pos < result.length then
      match (result.drop pos).findIdx? (fun c => c = '{') with
      | none => getTextLoop vars fuel result pos
      | some start =>
        match (result.drop start).findIdx? (fun c => c = '}') with
        | none => getTextLoop vars fuel result (pos + 1)
        | some endRel =>
          if endRel = 0 then none
          else
            let e := start + endRel
            let varName := String.mk ((result.drop (start + 1)).take (e - (start + 1)))
            let replacement :=
              match vars.getValue varName with
              | some v => (asString v).data
              | none => []
            getTextLoop vars fuel (result.take start ++ replacement ++ result.drop (e + 1))
              (start + replacement.length)
    else some result

/-- `TextSegment::get_text(variables)` with explicit fuel. -/
def TextSegment.getText (seg : TextSegment) (vars : VariableStorage) (fuel : Nat) :
    Option (List Char) :=
  getTextLoop vars fuel seg.template 0

/-- Rust `char::is_ascii_whitespace`. -/
def isAsciiWhitespace (c : Char) : Bool :=
  c = ' ' || c = '\t' || c = '\n' || c = '\x0C' || c = '\r'

/-- Worker for `line_builder::get_words_and_spaces`; `acc` holds the
(reversed) pending word exactly as the Rust code tracks `start..i`. -/
def gwsAux : List Char → List Char → List (List Char)
  | [], acc => if acc.isEmpty then [] else [acc.reverse]
  | c :: rest, acc =>
    if isAsciiWhitespace c then
      (if acc.isEmpty then [] else [acc.reverse]) ++ ([c] :: gwsAux rest [])
    else
      gwsAux rest (c :: acc)

/-- `line_builder::get_words_and_spaces`: splits text into maximal
non-whitespace runs and single whitespace characters, in order. -/
def getWordsAndSpaces (text : List Char) : List (List Char) :=
  gwsAux text []

/-- `font_style::FontStyle`. -/
structure FontStyle where
  font : FontData
  size : ℚ
  color : Color

def FontStyle.new (font : FontData) : FontStyle := ⟨font, 1, Color.WHITE⟩

/-- `FontStyle::line_height`. -/
def FontStyle.lineHeight (s : FontStyle) : ℚ := s.font.metrics.lineHeight * s.size

/-- `FontStyle::get_descender`. -/
def FontStyle.getDescender (s : FontStyle) : ℚ := s.font.metrics.descender * s.size

/-- `FontStyle::calculate_width`:
`text.chars().map(|ch| self.font.glyphs[ch as usize].advance).sum()`.
The glyph table has exactly 128 entries, so a character whose code point
is 128 or more makes the index panic (`none`).  Note the source sums the
raw advances; it does not multiply by `self.size`. -/
def FontStyle.calculateWidth (s : FontStyle) (text : List Char) : Option ℚ :=
  (text.mapM (fun ch => (s.font.glyphs[ch.toNat]?).map Glyph.advance)).map (fun l => l.sum)

/-- `line_builder::StyleRange`.  The Rust field `end` is called `stop`
here (`end` is reserved in Lean). -/
structure StyleRange where
  start : Nat
  stop : Nat
  styleIndex : Nat
deriving DecidableEq, Repr

/-- `line_builder::Line`. -/
structure Line where
  glyphs : List Char
  styleRanges : List StyleRange
  width : ℚ
  height : ℚ
deriving DecidableEq, Repr

/-- `Line::new`. -/
def Line.new : Line := ⟨[], [], 0, 0⟩

/-- `Line::adjust_height`. -/
def Line.adjustHeight (l : Line) (lineHeight : ℚ) : Line :=
  if l.height < lineHeight then { l with height := lineHeight } else l

/-- `Line::with_height`. -/
def Line.withHeight (l : Line) (height : ℚ) : Line := { l with height := height }

/-- The style-range update block at the end of `Line::push_glyphs`,
operating on the line after glyphs/width/height were updated; `k` is the
number of just-appended glyphs (`glyphs.len()` of the pushed slice):
either extend the last style range (same style index) or append a fresh
range `[len - k, len)`. -/
def Line.pushRanges (l : Line) (k : Nat) (styleIndex : Nat) : Line :=
  match l.styleRanges.getLast? with
  | some last =>
    if last.styleIndex = styleIndex then
      { l with styleRanges := l.styleRanges.dropLast ++ [{ last with stop := l.glyphs.length }] }
    else
      { l with styleRanges :=
          l.styleRanges ++ [⟨l.glyphs.length - k, l.glyphs.length, styleIndex⟩] }
  | none =>
    { l with styleRanges :=
        l.styleRanges ++ [⟨l.glyphs.length - k, l.glyphs.length, styleIndex⟩] }

/-- `Line::push_glyphs`: append the glyphs, add the width, raise the
height, then update the style ranges. -/
def Line.pushGlyphs (l : Line) (gs : List Char) (width : ℚ) (styleIndex : Nat)
    (lineHeight : ℚ) : Line :=
  (({ l with glyphs := l.glyphs ++ gs, width := l.width + width }).adjustHeight
    lineHeight).pushRanges gs.length styleIndex

/-- `lines.last_mut().unwrap()` followed by a mutation: `none` models the
`unwrap` panic on an empty vector. -/
def updateLastLine (lines : List Line) (f : Line → Line) : Option (List Line) :=
  match lines.getLast? with
  | none => none
  | some l => some (lines.dropLast ++ [f l])

/-- Body of the `for word in words` loop of `build_lines`.  A lone `'\n'`
token only raises the current line's height; otherwise the style is
fetched (`styles[style_id]`, panic when out of bounds), the token width
computed, a fresh line started when the current one cannot fit the token
(`lines.last().is_none_or(|l| l.width + width > max_width)`), and the
token pushed onto the last line. -/
def processToken (styles : List FontStyle) (styleId : Nat) (lineHeight maxWidth : ℚ)
    (lines : List Line) (word : List Char) : Option (List Line) :=
  if word = ['\n'] then
    updateLastLine lines (fun l => l.adjustHeight lineHeight)
  else
    match styles[styleId]? with
    | none => none
    | some fontStyle =>
      match fontStyle.calculateWidth word with
      | none => none
      | some width =>
        updateLastLine
          (if (match lines.getLast? with
                | none => true
                | some l => decide (maxWidth < l.width + width))
            then lines ++ [Line.new.withHeight fontStyle.lineHeight]
            else lines)
          (fun l => l.pushGlyphs word width styleId lineHeight)

/-- Body of the `for text_segment in text_segments` loop of `build_lines`:
resolve the template, tokenize, fetch the segment's style
(`styles[text_segment.style_id]`, panic when out of bounds), then process
every token. -/
def processSegment (styles : List FontStyle) (vars : VariableStorage) (maxWidth : ℚ)
    (fuel : Nat) (lines : List Line) (seg : TextSegment) : Option (List Line) :=
  match seg.getText vars fuel with
  | none => none
  | some text =>
    match styles[seg.styleId]? with
    | none => none
    | some style =>
      (getWordsAndSpaces text).foldlM
        (processToken styles seg.styleId style.lineHeight maxWidth) lines

/-- `line_builder::build_lines`. -/
def buildLines (segments : List TextSegment) (styles : List FontStyle)
    (vars : VariableStorage) (maxWidth : ℚ) (fuel : Nat) : Option (List Line) :=
  segments.foldlM (processSegment styles vars maxWidth fuel) [Line.new]

/-- `text_object::HorizontalAlign`. -/
inductive HorizontalAlign where
  | Left
  | Center
  | Right
deriving DecidableEq, Repr

/-- `text_object::VerticalAlign`. -/
inductive VerticalAlign where
  | Top
  | Middle
  | Bottom
deriving DecidableEq, Repr

/-- `text_object::TextObject`. -/
structure TextObject where
  textSegments : List TextSegment
  varStorage : VariableStorage
  autoLineBreak : Bool
  sizeToFit : Bool
  hAlign : HorizontalAlign
  vAlign : VerticalAlign
  bounds : Bounds
  dirty : Bool
  maxStyleId : Nat

/-- `TextObject::new`. -/
def TextObject.new (text : List Char) : TextObject :=
  { textSegments := [TextSegment.new text 0]
    varStorage := EmptyVariableStorage
    autoLineBreak := false
    sizeToFit := false
    hAlign := .Center
    vAlign := .Middle
    bounds := Bounds.default
    dirty := true
    maxStyleId := 0 }

/-- `TextObject::new_with_storage`. -/
def TextObject.newWithStorage (text : List Char) (vars : VariableStorage) : TextObject :=
  { TextObject.new text with varStorage := vars }

/-- `TextObject::with_bounds`. -/
def TextObject.withBounds (o : TextObject) (b : Bounds) : TextObject :=
  { o with bounds := b, dirty := true }

/-- `TextObject::with_auto_line_break`. -/
def TextObject.withAutoLineBreak (o : TextObject) (v : Bool) : TextObject :=
  { o with autoLineBreak := v, dirty := true }

/-- `TextObject::sized_to_fit`. -/
def TextObject.sizedToFit (o : TextObject) (v : Bool) : TextObject :=
  { o with sizeToFit := v, dirty := true }

/-- `TextObject::with_h_align`. -/
def TextObject.withHAlign (o : TextObject) (a : HorizontalAlign) : TextObject :=
  { o with hAlign := a, dirty := true }

/-- `TextObject::with_v_align`. -/
def TextObject.withVAlign (o : TextObject) (a : VerticalAlign) : TextObject :=
  { o with vAlign := a, dirty := true }

/-- `TextObject::set_variable`: marks the object dirty exactly when the
storage recognised the name. -/
def TextObject.setVariable (o : TextObject) (name : String) (v : InterpolationValue) :
    TextObject :=
  if (o.varStorage.setValueByName name v).2 then
    { o with varStorage := (o.varStorage.setValueByName name v).1, dirty := true }
  else
    { o with varStorage := (o.varStorage.setValueByName name v).1 }

/-- `TextObject::get_variable`. -/
def TextObject.getVariable (o : TextObject) (name : String) : Option InterpolationValue :=
  o.varStorage.getValue name

/-- `TextObject::with_variable`: `set_variable` then unconditionally
`dirty = true`. -/
def TextObject.withVariable (o : TextObject) (name : String) (v : InterpolationValue) :
    TextObject :=
  { o.setVariable name v with dirty := true }

/-- `TextObject::with_text_segment`. -/
def TextObject.withTextSegment (o : TextObject) (seg : TextSegment) : TextObject :=
  { o with
    maxStyleId := max seg.styleId o.maxStyleId
    textSegments := o.textSegments ++ [seg]
    dirty := true }

/-- `TextObject::set_clean`. -/
def TextObject.setClean (o : TextObject) : TextObject := { o with dirty := false }

/-- `TextObject::needs_update`. -/
def TextObject.needsUpdate (o : TextObject) : Bool := o.dirty

/-- Modelled from the spec: the produced vertex record
(`gpu_resources::types::font_types::FontVertex`, whose defining module is
not among the sources) — "a vertex array of records { position: 2 floats,
color: 4 floats, atlas_coords: 2 floats, glyph_coords: 2 floats,
bounds_coords: 2 floats }".  Field names follow the construction site in
`text_object.rs` (including the `altas_coords` spelling). -/
structure FontVertex where
  position : Vec2
  color : ℚ × ℚ × ℚ × ℚ
  altasCoords : Vec2
  glyphCoords : Vec2
  boundsCoords : Vec2
deriving DecidableEq, Repr

/-- The literal index pattern pushed for one glyph quad
(`index_buffer.push(0); ... push(3);`). -/
def quadIndexPattern : List Nat := [0, 1, 2, 0, 2, 3]

/-- Rust slice `line.glyphs[sr.start..sr.end]`; `none` models the slice
panic on an ill-formed range. -/
def sliceGlyphs (l : Line) (sr : StyleRange) : Option (List Char) :=
  if sr.start ≤ sr.stop ∧ sr.stop ≤ l.glyphs.length then
    some ((l.glyphs.drop sr.start).take (sr.stop - sr.start))
  else none

/-- The glyph-counting loop body of `TextObject::tesselate` for one style
range: every non-whitespace glyph increments
`total_glyphs_per_style[style_range.style_index]`, which panics (`none`)
when the index is not below the vector's length. -/
def countGlyphsRange (l : Line) (counts : List Nat) (sr : StyleRange) : Option (List Nat) :=
  match sliceGlyphs l sr with
  | none => none
  | some gs =>
    gs.foldlM
      (fun counts g =>
        if isAsciiWhitespace g then some counts
        else
          match counts[sr.styleIndex]? with
          | none => none
          | some c => some (counts.set sr.styleIndex (c + 1)))
      counts

/-- The glyph-counting phase of `TextObject::tesselate`.  The accumulator
starts as `Vec::with_capacity(styles.len())`, whose length is zero — only
its capacity is `styles.len()` — hence the initial value `[]`. -/
def countGlyphs (lines : List Line) : Option (List Nat) :=
  lines.foldlM (fun counts l => l.styleRanges.foldlM (countGlyphsRange l) counts) []

/-- The four vertices pushed for one glyph quad (bottom-left, top-left,
top-right, bottom-right), exactly as constructed in the source. -/
def quadVertices (o : TextObject) (style : FontStyle) (cursorX baselineY : ℚ)
    (pb ab : Bounds) : List FontVertex :=
  [⟨(pb.transformed cursorX baselineY style.size style.size).getBottomLeft,
      style.color.toVec4, ab.getBottomLeft, Vec2.new 0 0,
      (pb.normalizedWithin o.bounds).getBottomLeft⟩,
    ⟨(pb.transformed cursorX baselineY style.size style.size).getTopLeft,
      style.color.toVec4, ab.getTopLeft, Vec2.new 0 1,
      (pb.normalizedWithin o.bounds).getTopLeft⟩,
    ⟨(pb.transformed cursorX baselineY style.size style.size).getTopRight,
      style.color.toVec4, ab.getTopRight, Vec2.new 1 1,
      (pb.normalizedWithin o.bounds).getTopRight⟩,
    ⟨(pb.transformed cursorX baselineY style.size style.size).getBottomRight,
      style.color.toVec4, ab.getBottomRight, Vec2.new 1 0,
      (pb.normalizedWithin o.bounds).getBottomRight⟩]

/-- The buffer pair after one glyph of the glyph loop: when both plane
and atlas bounds are present the 4 vertices and the literal indices
0,1,2,0,2,3 are appended; otherwise the pair is unchanged. -/
def glyphPairStep (o : TextObject) (style : FontStyle) (cursorX baselineY : ℚ)
    (glyphData : Glyph) (vb : List FontVertex) (ib : List Nat) :
    List FontVertex × List Nat :=
  match glyphData.planeBounds, glyphData.atlasBounds with
  | some pb, some ab =>
    (vb ++ quadVertices o style cursorX baselineY pb ab, ib ++ quadIndexPattern)
  | _, _ => (vb, ib)

/-- Per-glyph emission step of `TextObject::tesselate`.  The buffer pair
is fetched with `get_mut` (a miss skips the whole body, including the
cursor advance); the glyph datum is `style.font.glyphs[*glyph as u8 as
usize]` (panic when the truncated code point is 128 or more); the buffer
pair is updated by `glyphPairStep` and the horizontal cursor advances by
`advance * size`. -/
def emitGlyph (o : TextObject) (style : FontStyle) (baselineY : ℚ) (sr : StyleRange)
    (state : List (List FontVertex × List Nat) × ℚ) (g : Char) :
    Option (List (List FontVertex × List Nat) × ℚ) :=
  match state.1[sr.styleIndex]? with
  | none => some (state.1, state.2)
  | some (vb, ib) =>
    match style.font.glyphs[g.toNat % 256]? with
    | none => none
    | some glyphData =>
      some (state.1.set sr.styleIndex (glyphPairStep o style state.2 baselineY glyphData vb ib),
        state.2 + glyphData.advance * style.size)

/-- Per-style-range emission of `TextObject::tesselate`: fetch the style
(`styles[style_range.style_index]`, panic when out of bounds), derive the
baseline, walk the range's glyphs, then — still inside the range loop in
the source — lower the vertical cursor by the line height. -/
def emitRange (o : TextObject) (styles : List FontStyle) (line : Line) (lineBottom : ℚ)
    (state : List (List FontVertex × List Nat) × ℚ × ℚ) (sr : StyleRange) :
    Option (List (List FontVertex × List Nat) × ℚ × ℚ) :=
  match styles[sr.styleIndex]? with
  | none => none
  | some style =>
    match sliceGlyphs line sr with
    | none => none
    | some gs =>
      match gs.foldlM (emitGlyph o style (lineBottom + style.getDescender) sr)
          (state.1, state.2.1) with
      | none => none
      | some (buffers', cursorX') => some (buffers', cursorX', state.2.2 - line.height)

/-- Per-line emission of `TextObject::tesselate`: compute the line bottom
and the `h_align`-dependent horizontal start, then walk the style ranges. -/
def emitLine (o : TextObject) (styles : List FontStyle)
    (state : List (List FontVertex × List Nat) × ℚ) (line : Line) :
    Option (List (List FontVertex × List Nat) × ℚ) :=
  match line.styleRanges.foldlM (emitRange o styles line (state.2 - line.height))
      (state.1,
        (match o.hAlign with
          | .Left => 0
          | .Center => (o.bounds.width - line.width) / 2
          | .Right => o.bounds.width - line.width),
        state.2) with
  | none => none
  | some (buffers', _, cursorY') => some (buffers', cursorY')

/-- `TextObject::tesselate`: wrap the segments (`build_lines`), count
non-whitespace glyphs per style, allocate one (vertex, index) buffer pair
per entry of the count vector, then emit all lines. -/
def TextObject.tesselate (o : TextObject) (styles : List FontStyle) (fuel : Nat) :
    Option (List (List FontVertex × List Nat)) :=
  match buildLines o.textSegments styles o.varStorage o.bounds.width fuel with
  | none => none
  | some lines =>
    match countGlyphs lines with
    | none => none
    | some counts =>
      match lines.foldlM (emitLine o styles)
          (counts.map (fun _ => (([] : List FontVertex), ([] : List Nat))),
            match o.vAlign with
            | .Top => o.bounds.top
            | .Middle => (o.bounds.height - (lines.map Line.height).sum) / 2
            | .Bottom => o.bounds.bottom - (lines.map Line.height).sum) with
      | none => none
      | some (buffers', _) => some buffers'

/-- `tesselate` takes the object by shared reference (`&self`); in the
state-passing reading of a method call the receiver is returned
unchanged alongside the result. -/
def TextObject.tesselateCall (o : TextObject) (styles : List FontStyle) (fuel : Nat) :
    TextObject × Option (List (List FontVertex × List Nat)) :=
  (o, o.tesselate styles fuel)

/-- Checks that a range list is a chain of nonempty, adjacent,
increasing ranges covering exactly `[s, n)`. -/
def rangesCover : List StyleRange → Nat → Nat → Bool
  | [], s, n => s == n
  | r :: rs, s, n => r.start == s && decide (s < r.stop) && rangesCover rs r.stop n

/-- Checks that no two consecutive ranges carry the same style index. -/
def adjacentStylesDistinct : List StyleRange → Bool
  | [] => true
  | [_] => true
  | a :: b :: rs => a.styleIndex != b.styleIndex && adjacentStylesDistinct (b :: rs)

/-- The style-range invariant claimed for every produced `Line`: the
ranges are sorted, non-overlapping, cover exactly `[0, glyphs.length)`,
and adjacent ranges never share a style index. -/
def Line.rangesWF (l : Line) : Bool :=
  rangesCover l.styleRanges 0 l.glyphs.length && adjacentStylesDistinct l.styleRanges

/-- The last source glyph carrying a given unicode value, if any — the
slot contents produced by the load loop, since later array writes
overwrite earlier ones. -/
def lastGlyphWith : List GlyphWithUnicode → Nat → Option GlyphWithUnicode
  | [], _ => none
  | g :: v, i =>
    match lastGlyphWith v i with
    | some h => some h
    | none => if g.unicode = i then some g else none

/-! Concrete data used to evaluate the model on specific inputs. -/

/-- A glyph with advance 1 and no rectangles (not renderable). -/
def testGlyph : Glyph := ⟨1, none, none⟩

/-- A renderable glyph: advance 1, plane and atlas rectangles present. -/
def boundedGlyph : Glyph := ⟨1, some ⟨0, 1, 1, 0⟩, some ⟨10, 20, 30, 40⟩⟩

/-- A font whose 128 glyphs all have advance 1; line height 10,
descender -2. -/
def testFont : FontData :=
  { metrics := ⟨1, 10, 8, -2, 0, 0⟩
    glyphs := List.replicate 128 testGlyph
    glyphs_length := by simp }

/-- `testFont` at size 1. -/
def testStyle : FontStyle := ⟨testFont, 1, Color.WHITE⟩

/-- `testFont` at size 2. -/
def doubleStyle : FontStyle := ⟨testFont, 2, Color.WHITE⟩

/-- A font whose 128 glyphs are all renderable, at size 1. -/
def boundedFont : FontData :=
  { metrics := ⟨1, 10, 8, -2, 0, 0⟩
    glyphs := List.replicate 128 boundedGlyph
    glyphs_length := by simp }

/-- `boundedFont` at size 1. -/
def boundedStyle : FontStyle := ⟨boundedFont, 1, Color.WHITE⟩

/-- Enum-backed storage with `a ↦ "cat dog"` and `b ↦ "go"`. -/
def abStorage : VariableStorage :=
  ⟨fun s => if s = "a" then some 0 else if s = "b" then some 1 else none,
    [some (.String "cat dog"), some (.String "go")]⟩

/-- Enum-backed storage with `sp ↦ " "` (a single space). -/
def spStorage : VariableStorage :=
  ⟨fun s => if s = "sp" then some 0 else none, [some (.String " ")]⟩

/-- Enum-backed storage with `name ↦ "Hi"`. -/
def nameStorage : VariableStorage :=
  ⟨fun s => if s = "name" then some 0 else none, [some (.String "Hi")]⟩

/-- A text object whose single segment resolves to `"Hi"`. -/
def nameObject : TextObject :=
  (TextObject.newWithStorage "{name}".data nameStorage).withBounds ⟨0, 0, 100, 50⟩

/-- A text object whose single segment resolves to a single space. -/
def spObject : TextObject :=
  (TextObject.newWithStorage "{sp}".data spStorage).withBounds ⟨0, 0, 100, 50⟩

/-- A source glyph set: a `'?'` glyph (63), two glyphs for `'A'` (65, the
later one wins), and a non-ASCII glyph (200, dropped). -/
def sampleGlyphSet : List GlyphWithUnicode :=
  [⟨63, 5, none, none⟩, ⟨65, 2, none, none⟩, ⟨200, 9, none, none⟩, ⟨65, 4, none, none⟩]

/-- A source glyph set with no `'?'` glyph. -/
def noQmarkGlyphSet : List GlyphWithUnicode := [⟨65, 2, none, none⟩]

/-- The glyph table loaded from `sampleGlyphSet` (the `some` payload). -/
def sampleGlyphTable : List Glyph := (deserializeAsciiGlyphs sampleGlyphSet).getD []

/-- The lines built from two styled segments resolving to `"cat dog"`
(style 0) and `"go"` (style 1) under a wide bound (the `some` payload). -/
def sampleLines : List Line :=
  (buildLines [TextSegment.new "{a}".data 0, TextSegment.new "{b}".data 1]
    [testStyle, testStyle] abStorage 100 50).getD []

/-- The lines built from `"cat dog"` wrapped at width 7/2 (the `some`
payload): `"cat"`, `" "`, `"dog"` on three lines. -/
def catDogLines : List Line :=
  (buildLines [TextSegment.new "{a}".data 0] [testStyle] abStorage (7 / 2) 50).getD []

end TextEngine

namespace TextEngine

/-!  ## Theorems  -/

/-- Claim C1: the spec states that for a template with no placeholder
occurrence `get_text` terminates and returns the template unchanged.  The
code disagrees: the `while pos < result.len()` loop's only `pos`
advancement happens when an opening brace is found at or after `pos`, so
for any nonempty template containing no `'\x7b'` the loop body leaves the
state unchanged and the function never returns — `none` for every fuel,
every variable storage.  (The spec's sentence is the clear intent — §5 of
the spec even promises all operations run to completion — so this is
recorded as a code bug, witnessed here by the divergence.) -/
theorem getText_no_placeholder_diverges (t : List Char) (hne : t ≠ [])
    (hnb : ∀ c ∈ t, c ≠ '{') (vs : VariableStorage) (fuel : Nat) :
    (TextSegment.new t 0).getText vs fuel = none := by
  have hlen : 0 < t.length := List.length_pos.mpr hne
  have hfind : (t.drop 0).findIdx? (fun c => decide (c = '{')) = none := by
    rw [List.drop_zero]
    exact List.findIdx?_eq_none_iff.mpr (fun c hc => by simp [hnb c hc])
  induction fuel with
  | zero => rfl
  | succ n ih =>
    show getTextLoop vs (n + 1) t 0 = none
    rw [getTextLoop, if_pos hlen, hfind]
    exact ih

/-- Witness for C1 at the concrete failing input: template `"hi"`, empty
variable storage. -/
theorem getText_no_placeholder_diverges_witness :
    ("hi".data ≠ [] ∧ (∀ c ∈ "hi".data, c ≠ '{')) ∧
      (TextSegment.new "hi".data 0).getText EmptyVariableStorage 1000 = none :=
  ⟨⟨by decide, by decide⟩,
    getText_no_placeholder_diverges "hi".data (by decide) (by decide)
      EmptyVariableStorage 1000⟩

set_option maxRecDepth 8000 in
/-- Claim C4: the claim (and the spec) state `calculate_width(t) = (Σ
advance) × size`.  The code sums the raw advances and never multiplies by
`self.size`, while `line_height` and `get_descender` do scale — and the
tesselator advances its cursor by `advance * size`, so the unscaled width
contradicts both the spec and the rest of the module.  At a style of size
2 over a font whose every advance is 1, the claim predicts width 2 for
`"a"`; the code yields 1. -/
theorem calculateWidth_not_scaled_by_size :
    doubleStyle.lineHeight = 20 ∧ doubleStyle.getDescender = -4 ∧
      doubleStyle.calculateWidth ['a'] = some 1 ∧
      ¬ doubleStyle.calculateWidth ['a'] = some (1 * 2) := by
  refine ⟨?_, ?_, ?_, ?_⟩ <;> with_unfolding_all decide

/-- Claim C6: `as_string` passes strings through, renders integers in
decimal and booleans as "true"/"false", and renders floats with the
fractional-part-zero / two-decimals-then-trim rule; in particular 2.0 ↦
"2", 2.5 ↦ "2.5", 2.50 (the same double as 2.5) ↦ "2.5". -/
theorem asString_contract :
    (∀ s, asString (.String s) = s) ∧
      asString (.Integer 42) = "42" ∧ asString (.Integer (-7)) = "-7" ∧
      asString (.Boolean true) = "true" ∧ asString (.Boolean false) = "false" ∧
      asString (.Float 2) = "2" ∧ asString (.Float (5 / 2)) = "2.5" ∧
      asString (.Float (250 / 100)) = "2.5" ∧ asString (.Float (314 / 100)) = "3.14" ∧
      asString (.Float (310 / 100)) = "3.1" := by
  refine ⟨fun s => rfl, ?_, ?_, ?_, ?_, ?_, ?_, ?_, ?_, ?_⟩ <;> with_unfolding_all decide

/-- Helper: mapping the advance lookup over a string fails as soon as one
character's code point reaches the table length. -/
theorem mapM_advance_none {glyphs : List Glyph} (hlen : glyphs.length = 128) :
    ∀ t : List Char, (∃ c ∈ t, 128 ≤ c.toNat) →
      t.mapM (fun ch => (glyphs[ch.toNat]?).map Glyph.advance) = none := by
  intro t
  induction t with
  | nil => rintro ⟨c, hc, -⟩; cases hc
  | cons a t ih =>
    rintro ⟨c, hc, hbig⟩
    rw [List.mapM_cons]
    rcases List.mem_cons.mp hc with h1 | h2
    · subst h1
      rw [List.getElem?_eq_none (by omega)]
      rfl
    · cases hga : glyphs[a.toNat]? with
      | none => rfl
      | some gl =>
        simp only [hga, Option.map_some']
        rw [ih ⟨c, h2, hbig⟩]
        rfl

/-- Helper: the advance lookup succeeds on every all-ASCII string. -/
theorem mapM_advance_some {glyphs : List Glyph} (hlen : glyphs.length = 128) :
    ∀ t : List Char, (∀ c ∈ t, c.toNat < 128) →
      ∃ l, t.mapM (fun ch => (glyphs[ch.toNat]?).map Glyph.advance) = some l := by
  intro t
  induction t with
  | nil => exact fun _ => ⟨[], rfl⟩
  | cons a t ih =>
    intro h
    have ha : a.toNat < glyphs.length := by
      rw [hlen]; exact h a (List.mem_cons_self a t)
    obtain ⟨l, hl⟩ := ih fun x hx => h x (List.mem_cons_of_mem _ hx)
    refine ⟨glyphs[a.toNat].advance :: l, ?_⟩
    rw [List.mapM_cons, List.getElem?_eq_getElem ha]
    simp only [Option.map_some', hl]
    rfl

/-- Claim C10: `calculate_width` indexes the fixed 128-entry table with
each character's code point, so it returns a width exactly for all-ASCII
strings; any character with code point 128 or more makes the Rust
indexing panic, modelled by `none`. -/
theorem calculateWidth_total_iff_ascii (st : FontStyle) (t : List Char) :
    ((∀ c ∈ t, c.toNat < 128) → ∃ w, st.calculateWidth t = some w) ∧
      ((∃ c ∈ t, 128 ≤ c.toNat) → st.calculateWidth t = none) := by
  unfold FontStyle.calculateWidth
  constructor
  · intro h
    obtain ⟨l, hl⟩ := mapM_advance_some st.font.glyphs_length t h
    exact ⟨l.sum, by rw [hl]; rfl⟩
  · intro h
    rw [mapM_advance_none st.font.glyphs_length t h]
    rfl

set_option maxRecDepth 2000 in
/-- Witness for C10: `"ab"` gets a width from `testStyle`, while a string
containing `'é'` (code point 233) panics. -/
theorem calculateWidth_total_iff_ascii_witness :
    ((∀ c ∈ "ab".data, c.toNat < 128) ∧ ∃ w, testStyle.calculateWidth "ab".data = some w) ∧
      ((∃ c ∈ ['é'], 128 ≤ c.toNat) ∧ testStyle.calculateWidth ['é'] = none) :=
  ⟨⟨by decide, (calculateWidth_total_iff_ascii testStyle "ab".data).1 (by decide)⟩,
    ⟨by decide, (calculateWidth_total_iff_ascii testStyle ['é']).2 (by decide)⟩⟩

/-- Helper: the glyph-table load loop preserves the table length. -/
theorem loadSlots_foldl_length (v : List GlyphWithUnicode) :
    ∀ init : List (Option Glyph),
      (v.foldl
        (fun slots g =>
          if g.unicode < 128 then slots.set g.unicode (some g.toGlyph) else slots)
        init).length = init.length := by
  induction v with
  | nil => intro init; rfl
  | cons g v ih =>
    intro init
    rw [List.foldl_cons, ih]
    by_cases h : g.unicode < 128 <;> simp [h]

/-- Helper: after the load loop, ASCII slot `i` holds the last source
glyph with unicode `i` (converted), or the initial slot contents. -/
theorem loadSlots_foldl_getElem (v : List GlyphWithUnicode) (i : Nat) (hi : i < 128) :
    ∀ init : List (Option Glyph), init.length = 128 →
      (v.foldl
        (fun slots g =>
          if g.unicode < 128 then slots.set g.unicode (some g.toGlyph) else slots)
        init)[i]? =
        match lastGlyphWith v i with
        | some g => some (some g.toGlyph)
        | none => init[i]? := by
  induction v with
  | nil => intro init _; rfl
  | cons g v ih =>
    intro init hinit
    rw [List.foldl_cons]
    have hlen' : (if g.unicode < 128 then init.set g.unicode (some g.toGlyph) else init).length
        = 128 := by
      by_cases h : g.unicode < 128 <;> simp [h, hinit]
    rw [ih _ hlen']
    show _ = (match lastGlyphWith (g :: v) i with
      | some h => some (some h.toGlyph)
      | none => init[i]?)
    rw [lastGlyphWith]
    cases hl : lastGlyphWith v i with
    | some h => rfl
    | none =>
      by_cases hgu : g.unicode = i
      · subst hgu
        rw [if_pos hi, if_pos rfl, List.getElem?_set_self (by omega)]
      · rw [if_neg hgu]
        by_cases hlt : g.unicode < 128
        · rw [if_pos hlt, List.getElem?_set_ne hgu]
        · rw [if_neg hlt]

/-- Claim C7: loading a glyph table retains exactly the source glyphs
with unicode below 128, each stored at its code point (later duplicates
win, as in the array-write loop); every remaining ASCII slot is
back-filled with the glyph loaded for `'?'` (code point 63); and a glyph
set with no `'?'` glyph fails fatally (`none`) instead of producing a
table. -/
theorem deserializeAsciiGlyphs_spec (v : List GlyphWithUnicode) :
    (deserializeAsciiGlyphs v = none ↔ lastGlyphWith v 63 = none) ∧
      ∀ arr, deserializeAsciiGlyphs v = some arr →
        arr.length = 128 ∧
        ∃ q, lastGlyphWith v 63 = some q ∧
          ∀ i, i < 128 →
            arr[i]? =
              some (((lastGlyphWith v i).map GlyphWithUnicode.toGlyph).getD q.toGlyph) := by
  have hlen : (loadSlots v).length = 128 := by
    unfold loadSlots
    rw [loadSlots_foldl_length]
    simp
  have hget : ∀ i, i < 128 →
      (loadSlots v)[i]? =
        match lastGlyphWith v i with
        | some g => some (some g.toGlyph)
        | none => some none := by
    intro i hi
    unfold loadSlots
    rw [loadSlots_foldl_getElem v i hi _ (by simp)]
    cases lastGlyphWith v i with
    | some g => rfl
    | none => rw [List.getElem?_replicate_of_lt hi]
  have hgetD : (loadSlots v).getD 63 none =
      match lastGlyphWith v 63 with
      | some g => some g.toGlyph
      | none => none := by
    rw [List.getD_eq_getElem?_getD, hget 63 (by omega)]
    cases lastGlyphWith v 63 with
    | some g => rfl
    | none => rfl
  constructor
  · simp only [deserializeAsciiGlyphs]
    rw [hgetD]
    cases hq : lastGlyphWith v 63 with
    | some g => simp
    | none => simp
  · intro arr harr
    simp only [deserializeAsciiGlyphs] at harr
    rw [hgetD] at harr
    cases hq : lastGlyphWith v 63 with
    | none => rw [hq] at harr; cases harr
    | some q =>
      rw [hq] at harr
      have harr' : arr = (loadSlots v).map (fun g => g.getD q.toGlyph) :=
        (Option.some.inj harr).symm
      subst harr'
      refine ⟨by simp [hlen], q, rfl, ?_⟩
      intro i hi
      rw [List.getElem?_map, hget i hi]
      cases lastGlyphWith v i with
      | some g => rfl
      | none => rfl

set_option maxRecDepth 4000 in
/-- Witness for C7: `sampleGlyphSet` loads (`'?'` present, later
duplicate for `'A'` wins, non-ASCII glyph dropped), while
`noQmarkGlyphSet` fails fatally. -/
theorem deserializeAsciiGlyphs_spec_witness :
    deserializeAsciiGlyphs noQmarkGlyphSet = none ∧
      (sampleGlyphTable.length = 128 ∧
        ∃ q, lastGlyphWith sampleGlyphSet 63 = some q ∧
          ∀ i, i < 128 →
            sampleGlyphTable[i]? =
              some (((lastGlyphWith sampleGlyphSet i).map GlyphWithUnicode.toGlyph).getD
                q.toGlyph)) :=
  ⟨(deserializeAsciiGlyphs_spec noQmarkGlyphSet).1.mpr (by decide),
    (deserializeAsciiGlyphs_spec sampleGlyphSet).2 sampleGlyphTable
      (by with_unfolding_all decide)⟩

/-- Helper: a per-element invariant carried through `List.foldlM` over
`Option`. -/
theorem foldlM_option_inv {α σ : Type} (f : σ → α → Option σ) (P : σ → Prop) (Q : α → Prop) :
    ∀ (l : List α) (s s' : σ), (∀ a ∈ l, Q a) →
      (∀ t a t', Q a → P t → f t a = some t' → P t') →
      P s → l.foldlM f s = some s' → P s' := by
  intro l
  induction l with
  | nil =>
    intro s s' _ _ hs h
    simp only [List.foldlM_nil] at h
    exact (Option.some.inj h) ▸ hs
  | cons a l ih =>
    intro s s' hQ hf hs h
    rw [List.foldlM_cons] at h
    cases hfa : f s a with
    | none => rw [hfa] at h; cases h
    | some t =>
      rw [hfa] at h
      exact ih t s' (fun x hx => hQ x (List.mem_cons_of_mem _ hx)) hf
        (hf s a t (hQ a (List.mem_cons_self a l)) hs hfa) h

/-- Helper: anatomy of a successful `last_mut().unwrap()` update. -/
theorem updateLastLine_eq {lines lines' : List Line} {f : Line → Line}
    (h : updateLastLine lines f = some lines') :
    ∃ init last, lines = init ++ [last] ∧ lines' = init ++ [f last] := by
  unfold updateLastLine at h
  cases hl : lines.getLast? with
  | none => rw [hl] at h; cases h
  | some last =>
    rw [hl] at h
    obtain ⟨init, rfl⟩ := List.getLast?_eq_some_iff.mp hl
    refine ⟨init, last, rfl, ?_⟩
    rw [← Option.some.inj h, List.dropLast_concat]

/-- Helper: every token produced by the tokenizer is nonempty. -/
theorem gwsAux_ne_nil : ∀ t acc : List Char, ∀ w ∈ gwsAux t acc, w ≠ [] := by
  intro t
  induction t with
  | nil =>
    intro acc w hw
    cases acc with
    | nil => cases hw
    | cons c cs =>
      simp only [gwsAux, List.isEmpty_cons, Bool.false_eq_true, if_false] at hw
      rw [List.mem_singleton] at hw
      subst hw
      simp
  | cons c rest ih =>
    intro acc w hw
    unfold gwsAux at hw
    by_cases hws : isAsciiWhitespace c
    · rw [if_pos hws] at hw
      rcases List.mem_append.mp hw with h1 | h2
      · cases acc with
        | nil => cases h1
        | cons a as =>
          simp only [List.isEmpty_cons, Bool.false_eq_true, if_false] at h1
          rw [List.mem_singleton] at h1
          subst h1
          simp
      · rcases List.mem_cons.mp h2 with h3 | h4
        · subst h3; simp
        · exact ih [] w h4
    · rw [if_neg hws] at hw
      exact ih (c :: acc) w hw

/-- Helper: `adjust_height` changes neither glyphs, ranges, nor width. -/
theorem adjustHeight_parts (l : Line) (h : ℚ) :
    (l.adjustHeight h).glyphs = l.glyphs ∧ (l.adjustHeight h).styleRanges = l.styleRanges ∧
      (l.adjustHeight h).width = l.width := by
  unfold Line.adjustHeight
  split <;> exact ⟨rfl, rfl, rfl⟩

/-- Helper: `adjust_height` preserves the style-range invariant verbatim. -/
theorem adjustHeight_rangesWF (l : Line) (h : ℚ) :
    (l.adjustHeight h).rangesWF = l.rangesWF := by
  obtain ⟨h1, h2, -⟩ := adjustHeight_parts l h
  unfold Line.rangesWF
  rw [h1, h2]

/-- Helper: the fields of a `push_glyphs` result. -/
theorem pushGlyphs_parts (l : Line) (gs : List Char) (w : ℚ) (si : Nat) (lh : ℚ) :
    (l.pushGlyphs gs w si lh).glyphs = l.glyphs ++ gs ∧
      (l.pushGlyphs gs w si lh).width = l.width + w ∧
      (l.pushGlyphs gs w si lh).styleRanges =
        (match l.styleRanges.getLast? with
          | some last =>
            if last.styleIndex = si then
              l.styleRanges.dropLast ++ [{ last with stop := l.glyphs.length + gs.length }]
            else
              l.styleRanges ++ [⟨l.glyphs.length, l.glyphs.length + gs.length, si⟩]
          | none =>
            l.styleRanges ++ [⟨l.glyphs.length, l.glyphs.length + gs.length, si⟩]) := by
  unfold Line.pushGlyphs Line.pushRanges
  obtain ⟨hg, hr, hw⟩ :=
    adjustHeight_parts { l with glyphs := l.glyphs ++ gs, width := l.width + w } lh
  rw [hg, hr, hw]
  have hlen : (l.glyphs ++ gs).length - gs.length = l.glyphs.length := by
    rw [List.length_append, Nat.add_sub_cancel]
  have hlen2 : (l.glyphs ++ gs).length = l.glyphs.length + gs.length :=
    List.length_append _ _
  cases hlast : l.styleRanges.getLast? with
  | some last =>
    by_cases hsi : last.styleIndex = si
    · simp [hsi, hlen, hlen2]
    · simp [hsi, hlen, hlen2]
  | none => simp [hlen, hlen2]

/-- Helper: anatomy of a successful `processToken` call: either the token
is a line break and only the height is adjusted, or the token is pushed —
onto the existing last line when it fits, onto a freshly appended line
otherwise. -/
theorem processToken_cases {styles : List FontStyle} {styleId : Nat} {lh mw : ℚ}
    {lines lines' : List Line} {word : List Char}
    (h : processToken styles styleId lh mw lines word = some lines') :
    (word = ['\n'] ∧ updateLastLine lines (fun l => l.adjustHeight lh) = some lines') ∨
      (∃ fontStyle width, styles[styleId]? = some fontStyle ∧
        fontStyle.calculateWidth word = some width ∧
        ((∃ last, lines.getLast? = some last ∧ ¬ mw < last.width + width ∧
            updateLastLine lines (fun l => l.pushGlyphs word width styleId lh) = some lines') ∨
          updateLastLine (lines ++ [Line.new.withHeight fontStyle.lineHeight])
              (fun l => l.pushGlyphs word width styleId lh) = some lines')) := by
  unfold processToken at h
  split at h
  · next hw => exact Or.inl ⟨hw, h⟩
  · next hw =>
    split at h
    · cases h
    · next fontStyle hst =>
      split at h
      · cases h
      · next width hcw =>
        refine Or.inr ⟨fontStyle, width, hst, hcw, ?_⟩
        split at h
        · next hcond => exact Or.inr h
        · next hcond =>
          cases hlast : lines.getLast? with
          | none => rw [hlast] at hcond; exact absurd rfl hcond
          | some last =>
            rw [hlast] at hcond
            refine Or.inl ⟨last, rfl, ?_, h⟩
            intro hlt
            exact hcond (decide_eq_true hlt)

/-- Helper: an invariant on every produced line, threaded through
`build_lines` from a token-level preservation argument. -/
theorem buildLines_inv (P : Line → Prop) {segments : List TextSegment}
    {styles : List FontStyle} {vars : VariableStorage} {maxWidth : ℚ} {fuel : Nat}
    {lines : List Line}
    (h : buildLines segments styles vars maxWidth fuel = some lines)
    (hP0 : P Line.new)
    (hstep : ∀ seg ∈ segments, ∀ style, styles[seg.styleId]? = some style →
      ∀ text, seg.getText vars fuel = some text →
      ∀ tok ∈ getWordsAndSpaces text, ∀ lns lns',
        (∀ l ∈ lns, P l) →
        processToken styles seg.styleId style.lineHeight maxWidth lns tok = some lns' →
        ∀ l ∈ lns', P l) :
    ∀ l ∈ lines, P l := by
  unfold buildLines at h
  refine foldlM_option_inv _ (fun s => ∀ l ∈ s, P l) (fun seg => seg ∈ segments)
    segments _ lines (fun a ha => ha) ?_ ?_ h
  · intro lns seg lns' hseg hP hproc
    unfold processSegment at hproc
    cases htext : seg.getText vars fuel with
    | none => rw [htext] at hproc; cases hproc
    | some text =>
      rw [htext] at hproc
      cases hstyle : styles[seg.styleId]? with
      | none => rw [hstyle] at hproc; cases hproc
      | some style =>
        rw [hstyle] at hproc
        exact foldlM_option_inv _ (fun s => ∀ l ∈ s, P l)
          (fun tok => tok ∈ getWordsAndSpaces text) _ _ _ (fun a ha => ha)
          (fun t a t' hQa hPt hft => hstep seg hseg style hstyle text htext a hQa t t' hPt hft)
          hP hproc
  · intro l hl
    rw [List.mem_singleton] at hl
    subst hl
    exact hP0

/-- Helper: a freshly started line satisfies the style-range invariant. -/
theorem freshLine_rangesWF (h : ℚ) : (Line.new.withHeight h).rangesWF = true := rfl

/-- Helper: splitting a range chain at its final range. -/
theorem rangesCover_concat (rs : List StyleRange) (r : StyleRange) :
    ∀ s n, rangesCover (rs ++ [r]) s n = true ↔
      rangesCover rs s r.start = true ∧ r.start < r.stop ∧ r.stop = n := by
  induction rs with
  | nil =>
    intro s n
    simp only [List.nil_append, rangesCover, Bool.and_eq_true, beq_iff_eq, decide_eq_true_eq]
    constructor
    · rintro ⟨⟨h1, h2⟩, h3⟩
      exact ⟨by simp [h1], h1 ▸ h2, h3⟩
    · rintro ⟨h1, h2, h3⟩
      have hs : s = r.start := by simpa using h1
      exact ⟨⟨hs.symm, hs ▸ h2⟩, h3⟩
  | cons r0 rs ih =>
    intro s n
    simp only [List.cons_append, rangesCover, Bool.and_eq_true, beq_iff_eq,
      decide_eq_true_eq, List.append_eq, ih]
    tauto

/-- Helper: splitting the adjacent-styles-distinct check at a final range. -/
theorem adjacentStylesDistinct_concat (rs : List StyleRange) (r : StyleRange) :
    adjacentStylesDistinct (rs ++ [r]) = true ↔
      adjacentStylesDistinct rs = true ∧
        ∀ last, rs.getLast? = some last → last.styleIndex ≠ r.styleIndex := by
  induction rs with
  | nil =>
    constructor
    · intro _
      exact ⟨rfl, fun last hl => by cases hl⟩
    · intro _
      rfl
  | cons a rs ih =>
    cases rs with
    | nil =>
      constructor
      · intro h1
        have h1' : a.styleIndex ≠ r.styleIndex := by
          simp only [List.singleton_append, adjacentStylesDistinct, Bool.and_eq_true,
            bne_iff_ne] at h1
          exact h1.1
        refine ⟨rfl, fun last hl => ?_⟩
        rw [List.getLast?_singleton] at hl
        cases Option.some.inj hl
        exact h1'
      · rintro ⟨-, h2⟩
        have hne := h2 a (by rw [List.getLast?_singleton])
        simp [List.singleton_append, adjacentStylesDistinct, adjacentStylesDistinct, hne]
    | cons b rs' =>
      simp only [List.cons_append, adjacentStylesDistinct, Bool.and_eq_true, bne_iff_ne,
        List.append_eq, ih, List.getLast?_cons_cons]
      tauto

/-- Helper: `push_glyphs` with a nonempty glyph slice preserves the
style-range invariant. -/
theorem pushGlyphs_rangesWF {l : Line} (hWF : l.rangesWF = true) {gs : List Char}
    (hgs : gs ≠ []) (w : ℚ) (si : Nat) (lh : ℚ) :
    (l.pushGlyphs gs w si lh).rangesWF = true := by
  obtain ⟨hg, hw, hr⟩ := pushGlyphs_parts l gs w si lh
  unfold Line.rangesWF at hWF ⊢
  rw [Bool.and_eq_true] at hWF
  obtain ⟨hcov, hadj⟩ := hWF
  rw [Bool.and_eq_true, hg, List.length_append]
  have hK : 0 < gs.length := List.length_pos.mpr hgs
  cases hlast : l.styleRanges.getLast? with
  | none =>
    have hnil : l.styleRanges = [] := List.getLast?_eq_none_iff.mp hlast
    have hranges : (l.pushGlyphs gs w si lh).styleRanges =
        l.styleRanges ++ [⟨l.glyphs.length, l.glyphs.length + gs.length, si⟩] := by
      rw [hr, hlast]
    rw [hnil] at hcov
    have hlen0 : l.glyphs.length = 0 := by
      simp only [rangesCover, beq_iff_eq] at hcov
      omega
    rw [hranges, hnil, List.nil_append]
    constructor
    · simp only [rangesCover, Bool.and_eq_true, beq_iff_eq, decide_eq_true_eq]
      refine ⟨⟨by omega, by omega⟩, trivial⟩
    · rfl
  | some last =>
    obtain ⟨init, heq⟩ := List.getLast?_eq_some_iff.mp hlast
    rw [heq] at hcov hadj
    rw [rangesCover_concat] at hcov
    obtain ⟨hci, hlt, hstop⟩ := hcov
    rw [adjacentStylesDistinct_concat] at hadj
    obtain ⟨hai, hane⟩ := hadj
    by_cases hsi : last.styleIndex = si
    · have hranges : (l.pushGlyphs gs w si lh).styleRanges =
          l.styleRanges.dropLast ++
            [{ last with stop := l.glyphs.length + gs.length }] := by
        rw [hr, hlast]
        simp [hsi]
      rw [hranges, heq, List.dropLast_concat]
      constructor
      · rw [rangesCover_concat]
        refine ⟨hci, ?_, rfl⟩
        show last.start < l.glyphs.length + gs.length
        omega
      · rw [adjacentStylesDistinct_concat]
        exact ⟨hai, fun last' hl' => hane last' hl'⟩
    · have hranges : (l.pushGlyphs gs w si lh).styleRanges =
          l.styleRanges ++ [⟨l.glyphs.length, l.glyphs.length + gs.length, si⟩] := by
        rw [hr, hlast]
        simp [hsi]
      rw [hranges]
      constructor
      · rw [rangesCover_concat]
        refine ⟨?_, ?_, rfl⟩
        · rw [heq, rangesCover_concat]
          exact ⟨hci, hlt, hstop⟩
        · show l.glyphs.length < l.glyphs.length + gs.length
          omega
      · rw [adjacentStylesDistinct_concat]
        refine ⟨by rw [heq, adjacentStylesDistinct_concat]; exact ⟨hai, hane⟩, ?_⟩
        intro last' hl'
        rw [hlast] at hl'
        cases Option.some.inj hl'
        exact hsi

/-- Claim C8: in every `Line` produced by `build_lines`, the style
ranges are sorted in increasing position, non-overlapping (each range
starts where the previous one stops), cover exactly
`[0, glyphs.length)`, and no two consecutive ranges carry the same style
index — glyphs appended under the style of the current last range are
merged into it. -/
theorem buildLines_rangesWF {segments : List TextSegment} {styles : List FontStyle}
    {vars : VariableStorage} {maxWidth : ℚ} {fuel : Nat} {lines : List Line}
    (h : buildLines segments styles vars maxWidth fuel = some lines) :
    ∀ l ∈ lines, l.rangesWF = true := by
  refine buildLines_inv _ h (by decide) ?_
  intro seg hseg style hstyle text htext tok htok lns lns' hP hproc
  rcases processToken_cases hproc with ⟨-, hupd⟩ | ⟨fs, w, -, -, hcase⟩
  · obtain ⟨init, last, rfl, rfl⟩ := updateLastLine_eq hupd
    intro l hl
    rcases List.mem_append.mp hl with h1 | h2
    · exact hP l (List.mem_append_left _ h1)
    · rw [List.mem_singleton] at h2
      subst h2
      rw [adjustHeight_rangesWF]
      exact hP last (List.mem_append_right _ (List.mem_singleton.mpr rfl))
  · have htokne : tok ≠ [] := gwsAux_ne_nil text [] tok htok
    rcases hcase with ⟨last, hlast, -, hupd⟩ | hupd
    · obtain ⟨init, last', rfl, rfl⟩ := updateLastLine_eq hupd
      intro l hl
      rcases List.mem_append.mp hl with h1 | h2
      · exact hP l (List.mem_append_left _ h1)
      · rw [List.mem_singleton] at h2
        subst h2
        exact pushGlyphs_rangesWF
          (hP last' (List.mem_append_right _ (List.mem_singleton.mpr rfl))) htokne _ _ _
    · obtain ⟨init, last', heq, rfl⟩ := updateLastLine_eq hupd
      have hWFmem : ∀ x, x ∈ init ++ [last'] → x.rangesWF = true := by
        intro x hx
        rw [← heq] at hx
        rcases List.mem_append.mp hx with ha | hb
        · exact hP x ha
        · rw [List.mem_singleton] at hb
          subst hb
          exact freshLine_rangesWF _
      intro l hl
      rcases List.mem_append.mp hl with h1 | h2
      · exact hWFmem l (List.mem_append_left _ h1)
      · rw [List.mem_singleton] at h2
        subst h2
        exact pushGlyphs_rangesWF
          (hWFmem last' (List.mem_append_right _ (List.mem_singleton.mpr rfl))) htokne _ _ _

set_option maxRecDepth 8000 in
/-- Witness for C8: the single line built from segments `"cat dog"`
(style 0) and `"go"` (style 1) satisfies the invariant (its ranges are
`[0,7)@0` and `[7,9)@1`). -/
theorem buildLines_rangesWF_witness : (sampleLines.getD 0 Line.new).rangesWF = true := by
  have h : buildLines [TextSegment.new "{a}".data 0, TextSegment.new "{b}".data 1]
      [testStyle, testStyle] abStorage 100 50 = some sampleLines := by
    with_unfolding_all decide
  exact buildLines_rangesWF h _ (by with_unfolding_all decide)

/-- Claim C5: wrapping never splits a token, and with `max_width` at
least the rendered width of every token, no produced line exceeds
`max_width`.  Part 1 states the claim's guarded form: when
`0 ≤ max_width` (implied by the claim's premise, since rendered widths
are non-negative in any real font) and every token of every resolved
segment has width at most `max_width`, every line's width is at most
`max_width`.  Part 2 covers the exception and the tie-break with no
premise at all: any produced line either fits, or is the still-empty
initial line, or consists of exactly one whole token of some segment
placed on its own — an over-wide word is never split mid-word.  "Word
token" is read as any token of `get_words_and_spaces` (words and
single-whitespace tokens wrap independently, spec §4.2). -/
theorem buildLines_maxWidth {segments : List TextSegment} {styles : List FontStyle}
    {vars : VariableStorage} {maxWidth : ℚ} {fuel : Nat} {lines : List Line}
    (h : buildLines segments styles vars maxWidth fuel = some lines) :
    (0 ≤ maxWidth →
      (∀ seg ∈ segments, ∀ text, seg.getText vars fuel = some text →
        ∀ tok ∈ getWordsAndSpaces text, ∀ st, styles[seg.styleId]? = some st →
          ∀ w, st.calculateWidth tok = some w → w ≤ maxWidth) →
      ∀ l ∈ lines, l.width ≤ maxWidth) ∧
      (∀ l ∈ lines, l.width ≤ maxWidth ∨ l.glyphs = [] ∨
        ∃ seg ∈ segments, ∃ text, seg.getText vars fuel = some text ∧
          l.glyphs ∈ getWordsAndSpaces text) := by
  constructor
  · intro hmw hbound
    refine buildLines_inv (fun l => l.width ≤ maxWidth) h hmw ?_
    intro seg hseg style hstyle text htext tok htok lns lns' hP hproc
    rcases processToken_cases hproc with ⟨-, hupd⟩ | ⟨fs, wd, hfs, hwd, hcase⟩
    · obtain ⟨init, last, rfl, rfl⟩ := updateLastLine_eq hupd
      intro l hl
      rcases List.mem_append.mp hl with h1 | h2
      · exact hP l (List.mem_append_left _ h1)
      · rw [List.mem_singleton] at h2
        subst h2
        rw [(adjustHeight_parts last style.lineHeight).2.2]
        exact hP last (List.mem_append_right _ (List.mem_singleton.mpr rfl))
    · have hwle : wd ≤ maxWidth := hbound seg hseg text htext tok htok fs hfs wd hwd
      rcases hcase with ⟨last, hlast, hfit, hupd⟩ | hupd
      · obtain ⟨init, last', rfl, rfl⟩ := updateLastLine_eq hupd
        have hli : last = last' := by
          rw [List.getLast?_concat] at hlast
          exact (Option.some.inj hlast).symm
        subst hli
        intro l hl
        rcases List.mem_append.mp hl with h1 | h2
        · exact hP l (List.mem_append_left _ h1)
        · rw [List.mem_singleton] at h2
          subst h2
          rw [(pushGlyphs_parts last tok wd seg.styleId style.lineHeight).2.1]
          exact le_of_not_lt hfit
      · obtain ⟨init, last', heq, rfl⟩ := updateLastLine_eq hupd
        intro l hl
        rcases List.mem_append.mp hl with h1 | h2
        · have hx : l ∈ lns ++ [Line.new.withHeight fs.lineHeight] :=
            heq ▸ List.mem_append_left _ h1
          rcases List.mem_append.mp hx with ha | hb
          · exact hP l ha
          · rw [List.mem_singleton] at hb
            subst hb
            exact hmw
        · rw [List.mem_singleton] at h2
          subst h2
          have hfresh : last' = Line.new.withHeight fs.lineHeight := by
            have h1' : (lns ++ [Line.new.withHeight fs.lineHeight]).getLast? = some last' := by
              rw [heq, List.getLast?_concat]
            rw [List.getLast?_concat] at h1'
            exact (Option.some.inj h1').symm
          subst hfresh
          rw [(pushGlyphs_parts _ tok wd seg.styleId style.lineHeight).2.1]
          show (0 : ℚ) + wd ≤ maxWidth
          rw [zero_add]
          exact hwle
  · refine buildLines_inv
      (fun l => l.width ≤ maxWidth ∨ l.glyphs = [] ∨
        ∃ seg ∈ segments, ∃ text, seg.getText vars fuel = some text ∧
          l.glyphs ∈ getWordsAndSpaces text) h (Or.inr (Or.inl rfl)) ?_
    intro seg hseg style hstyle text htext tok htok lns lns' hP hproc
    rcases processToken_cases hproc with ⟨-, hupd⟩ | ⟨fs, wd, hfs, hwd, hcase⟩
    · obtain ⟨init, last, rfl, rfl⟩ := updateLastLine_eq hupd
      intro l hl
      rcases List.mem_append.mp hl with h1 | h2
      · exact hP l (List.mem_append_left _ h1)
      · rw [List.mem_singleton] at h2
        subst h2
        have hpl := hP last (List.mem_append_right _ (List.mem_singleton.mpr rfl))
        obtain ⟨hag, -, haw⟩ := adjustHeight_parts last style.lineHeight
        rw [haw, hag]
        exact hpl
    · rcases hcase with ⟨last, hlast, hfit, hupd⟩ | hupd
      · obtain ⟨init, last', rfl, rfl⟩ := updateLastLine_eq hupd
        have hli : last = last' := by
          rw [List.getLast?_concat] at hlast
          exact (Option.some.inj hlast).symm
        subst hli
        intro l hl
        rcases List.mem_append.mp hl with h1 | h2
        · exact hP l (List.mem_append_left _ h1)
        · rw [List.mem_singleton] at h2
          subst h2
          left
          rw [(pushGlyphs_parts last tok wd seg.styleId style.lineHeight).2.1]
          exact le_of_not_lt hfit
      · obtain ⟨init, last', heq, rfl⟩ := updateLastLine_eq hupd
        intro l hl
        rcases List.mem_append.mp hl with h1 | h2
        · have hx : l ∈ lns ++ [Line.new.withHeight fs.lineHeight] :=
            heq ▸ List.mem_append_left _ h1
          rcases List.mem_append.mp hx with ha | hb
          · exact hP l ha
          · rw [List.mem_singleton] at hb
            subst hb
            exact Or.inr (Or.inl rfl)
        · rw [List.mem_singleton] at h2
          subst h2
          have hfresh : last' = Line.new.withHeight fs.lineHeight := by
            have h1' : (lns ++ [Line.new.withHeight fs.lineHeight]).getLast? = some last' := by
              rw [heq, List.getLast?_concat]
            rw [List.getLast?_concat] at h1'
            exact (Option.some.inj h1').symm
          subst hfresh
          refine Or.inr (Or.inr ⟨seg, hseg, text, htext, ?_⟩)
          rw [(pushGlyphs_parts _ tok wd seg.styleId style.lineHeight).1]
          show [] ++ tok ∈ getWordsAndSpaces text
          rw [List.nil_append]
          exact htok

set_option maxRecDepth 8000 in
/-- Witness for C5: `"cat dog"` wrapped at `7/2` with unit advances — all
token widths (3, 1, 3) are at most `7/2`, and the first produced line
(`"cat"`) fits the bound. -/
theorem buildLines_maxWidth_witness : (catDogLines.getD 0 Line.new).width ≤ 7 / 2 := by
  have h : buildLines [TextSegment.new "{a}".data 0] [testStyle] abStorage (7 / 2) 50
      = some catDogLines := by
    with_unfolding_all decide
  refine (buildLines_maxWidth h).1 (by with_unfolding_all decide) ?_ _
    (by with_unfolding_all decide)
  intro seg hseg text htext tok htok st hst w hw
  rw [List.mem_singleton] at hseg
  subst hseg
  have htext' : text = "cat dog".data := by
    have hval : (TextSegment.new "{a}".data 0).getText abStorage 50 = some "cat dog".data := by
      with_unfolding_all decide
    exact (Option.some.inj (hval.symm.trans htext)).symm
  subst htext'
  have hst0 : some testStyle = some st := hst
  have hst' : st = testStyle := (Option.some.inj hst0).symm
  subst hst'
  have htoks : getWordsAndSpaces "cat dog".data = ["cat".data, [' '], "dog".data] := by
    with_unfolding_all decide
  rw [htoks] at htok
  rcases List.mem_cons.mp htok with h1 | htok
  · subst h1
    have h3 : testStyle.calculateWidth "cat".data = some 3 := by with_unfolding_all decide
    obtain rfl : (3 : ℚ) = w := Option.some.inj (h3.symm.trans hw)
    with_unfolding_all decide
  rcases List.mem_cons.mp htok with h1 | htok
  · subst h1
    have h3 : testStyle.calculateWidth [' '] = some 1 := by with_unfolding_all decide
    obtain rfl : (1 : ℚ) = w := Option.some.inj (h3.symm.trans hw)
    with_unfolding_all decide
  rcases List.mem_cons.mp htok with h1 | htok
  · subst h1
    have h3 : testStyle.calculateWidth "dog".data = some 3 := by with_unfolding_all decide
    obtain rfl : (3 : ℚ) = w := Option.some.inj (h3.symm.trans hw)
    with_unfolding_all decide
  · cases htok

/-- Helper: appending one more copy of a repeated block. -/
theorem flatten_replicate_concat (k : Nat) (p : List Nat) :
    (List.replicate (k + 1) p).flatten = (List.replicate k p).flatten ++ p := by
  rw [List.replicate_succ', List.flatten_append]
  simp

/-- Helper: `glyphPairStep` keeps the index buffer in repeated-pattern
form, with 4 vertices per quad. -/
theorem glyphPairStep_quads (o : TextObject) (style : FontStyle) (cursorX baselineY : ℚ)
    (gd : Glyph) (vb : List FontVertex) (ib : List Nat)
    (hQ : ∃ k, ib = (List.replicate k quadIndexPattern).flatten ∧ vb.length = 4 * k) :
    ∃ k, (glyphPairStep o style cursorX baselineY gd vb ib).2 =
        (List.replicate k quadIndexPattern).flatten ∧
      (glyphPairStep o style cursorX baselineY gd vb ib).1.length = 4 * k := by
  obtain ⟨k, hk1, hk2⟩ := hQ
  unfold glyphPairStep
  cases hpb : gd.planeBounds with
  | none => exact ⟨k, hk1, hk2⟩
  | some pb =>
    cases hab : gd.atlasBounds with
    | none => exact ⟨k, hk1, hk2⟩
    | some ab =>
      refine ⟨k + 1, ?_, ?_⟩
      · show ib ++ quadIndexPattern = _
        rw [flatten_replicate_concat, hk1]
      · show (vb ++ quadVertices o style cursorX baselineY pb ab).length = 4 * (k + 1)
        rw [List.length_append, hk2]
        rfl

/-- Helper: one glyph emission preserves the repeated-pattern invariant
for every buffer pair. -/
theorem emitGlyph_quads {o : TextObject} {style : FontStyle} {baselineY : ℚ}
    {sr : StyleRange} {state state' : List (List FontVertex × List Nat) × ℚ} {g : Char}
    (h : emitGlyph o style baselineY sr state g = some state')
    (hP : ∀ pair ∈ state.1, ∃ k, pair.2 = (List.replicate k quadIndexPattern).flatten ∧
      pair.1.length = 4 * k) :
    ∀ pair ∈ state'.1, ∃ k, pair.2 = (List.replicate k quadIndexPattern).flatten ∧
      pair.1.length = 4 * k := by
  unfold emitGlyph at h
  cases hbuf : state.1[sr.styleIndex]? with
  | none =>
    rw [hbuf] at h
    rw [← Option.some.inj h]
    exact hP
  | some pair0 =>
    obtain ⟨vb, ib⟩ := pair0
    rw [hbuf] at h
    cases hgd : style.font.glyphs[g.toNat % 256]? with
    | none => rw [hgd] at h; cases h
    | some gd =>
      rw [hgd] at h
      rw [← Option.some.inj h]
      intro pair hpair
      rcases List.mem_or_eq_of_mem_set hpair with hin | heq
      · exact hP pair hin
      · subst heq
        exact glyphPairStep_quads o style state.2 baselineY gd vb ib
          (hP (vb, ib) (List.getElem?_mem hbuf))

/-- Helper: a whole style range's emission preserves the invariant. -/
theorem emitRange_quads {o : TextObject} {styles : List FontStyle} {line : Line}
    {lineBottom : ℚ} {state state' : List (List FontVertex × List Nat) × ℚ × ℚ}
    {sr : StyleRange}
    (h : emitRange o styles line lineBottom state sr = some state')
    (hP : ∀ pair ∈ state.1, ∃ k, pair.2 = (List.replicate k quadIndexPattern).flatten ∧
      pair.1.length = 4 * k) :
    ∀ pair ∈ state'.1, ∃ k, pair.2 = (List.replicate k quadIndexPattern).flatten ∧
      pair.1.length = 4 * k := by
  unfold emitRange at h
  split at h
  · cases h
  · rename_i style hst
    split at h
    · cases h
    · rename_i gs hsl
      split at h
      · cases h
      · rename_i buffers' cursorX' hfold
        have hP' : ∀ pair ∈ buffers', ∃ k,
            pair.2 = (List.replicate k quadIndexPattern).flatten ∧ pair.1.length = 4 * k :=
          foldlM_option_inv _
            (fun st : List (List FontVertex × List Nat) × ℚ => ∀ pair ∈ st.1, ∃ k,
              pair.2 = (List.replicate k quadIndexPattern).flatten ∧ pair.1.length = 4 * k)
            (fun _ => True) gs (state.1, state.2.1) (buffers', cursorX')
            (fun _ _ => trivial) (fun t a t' _ hPt hft => emitGlyph_quads hft hPt) hP hfold
        rw [← Option.some.inj h]
        exact hP'

/-- Helper: a whole line's emission preserves the invariant. -/
theorem emitLine_quads {o : TextObject} {styles : List FontStyle}
    {state state' : List (List FontVertex × List Nat) × ℚ} {line : Line}
    (h : emitLine o styles state line = some state')
    (hP : ∀ pair ∈ state.1, ∃ k, pair.2 = (List.replicate k quadIndexPattern).flatten ∧
      pair.1.length = 4 * k) :
    ∀ pair ∈ state'.1, ∃ k, pair.2 = (List.replicate k quadIndexPattern).flatten ∧
      pair.1.length = 4 * k := by
  unfold emitLine at h
  split at h
  · cases h
  · rename_i buffers' cursorX' cursorY' hfold
    have hP' := foldlM_option_inv _
      (fun st : List (List FontVertex × List Nat) × ℚ × ℚ => ∀ pair ∈ st.1, ∃ k,
        pair.2 = (List.replicate k quadIndexPattern).flatten ∧ pair.1.length = 4 * k)
      (fun _ => True) line.styleRanges _ (buffers', cursorX', cursorY')
      (fun _ _ => trivial) (fun t a t' _ hPt hft => emitRange_quads hft hPt) hP hfold
    rw [← Option.some.inj h]
    exact hP'

/-- Claim C3: in every buffer pair produced by `tesselate`, the index
list is the literal sequence 0,1,2,0,2,3 repeated once per emitted quad
(4 vertices per quad), every index value is below 4, and no per-quad
base-vertex offset is ever added: a single emission appends exactly
`0,1,2,0,2,3` regardless of how many vertices the buffer already holds. -/
theorem tesselate_index_pattern :
    (∀ (o : TextObject) (styles : List FontStyle) (fuel : Nat)
      (out : List (List FontVertex × List Nat)),
      o.tesselate styles fuel = some out →
      ∀ pair ∈ out, ∃ k, pair.2 = (List.replicate k quadIndexPattern).flatten ∧
        pair.1.length = 4 * k ∧ ∀ i ∈ pair.2, i < 4) ∧
    (∀ (o : TextObject) (style : FontStyle) (baselineY : ℚ) (sr : StyleRange)
      (buffers : List (List FontVertex × List Nat)) (cursorX : ℚ) (g : Char)
      (vb : List FontVertex) (ib : List Nat) (gd : Glyph) (pb ab : Bounds),
      buffers[sr.styleIndex]? = some (vb, ib) →
      style.font.glyphs[g.toNat % 256]? = some gd →
      gd.planeBounds = some pb → gd.atlasBounds = some ab →
      emitGlyph o style baselineY sr (buffers, cursorX) g =
        some (buffers.set sr.styleIndex
            (vb ++ quadVertices o style cursorX baselineY pb ab, ib ++ quadIndexPattern),
          cursorX + gd.advance * style.size)) := by
  constructor
  · intro o styles fuel out h
    unfold TextObject.tesselate at h
    split at h
    · cases h
    · rename_i lines hbl
      split at h
      · cases h
      · rename_i counts hc
        split at h
        · cases h
        · rename_i buffers' cursorY' hfold
          have hinit : ∀ pair ∈ counts.map
              (fun _ => (([] : List FontVertex), ([] : List Nat))), ∃ k,
              pair.2 = (List.replicate k quadIndexPattern).flatten ∧
                pair.1.length = 4 * k := by
            intro pair hpair
            obtain ⟨c, -, hc2⟩ := List.mem_map.mp hpair
            subst hc2
            exact ⟨0, rfl, rfl⟩
          have hP' := foldlM_option_inv _
            (fun st : List (List FontVertex × List Nat) × ℚ => ∀ pair ∈ st.1, ∃ k,
              pair.2 = (List.replicate k quadIndexPattern).flatten ∧ pair.1.length = 4 * k)
            (fun _ => True) lines _ (buffers', cursorY')
            (fun _ _ => trivial) (fun t a t' _ hPt hft => emitLine_quads hft hPt) hinit hfold
          intro pair hpair
          rw [← Option.some.inj h] at hpair
          obtain ⟨k, hk1, hk2⟩ := hP' pair hpair
          refine ⟨k, hk1, hk2, ?_⟩
          intro i hi
          rw [hk1] at hi
          obtain ⟨blk, hblk, hiblk⟩ := List.mem_flatten.mp hi
          have hblk' : blk = quadIndexPattern := List.eq_of_mem_replicate hblk
          subst hblk'
          have hiblk' : i ∈ [0, 1, 2, 0, 2, 3] := hiblk
          fin_cases hiblk' <;> decide
  · intro o style baselineY sr buffers cursorX g vb ib gd pb ab hbuf hgd hpb hab
    simp only [emitGlyph, glyphPairStep, hbuf, hgd, hpb, hab]

set_option maxRecDepth 8000 in
/-- Witness for C3: a successful `tesselate` run (the space-only object),
and one concrete glyph emission appending exactly the 0,1,2,0,2,3 block. -/
theorem tesselate_index_pattern_witness :
    (∀ pair ∈ ([] : List (List FontVertex × List Nat)), ∃ k,
      pair.2 = (List.replicate k quadIndexPattern).flatten ∧
        pair.1.length = 4 * k ∧ ∀ i ∈ pair.2, i < 4) ∧
      emitGlyph spObject boundedStyle 0 ⟨0, 1, 0⟩ ([([], [])], 0) 'a' =
        some ([([], [])].set 0
            (([] : List FontVertex) ++
                quadVertices spObject boundedStyle 0 0 ⟨0, 1, 1, 0⟩ ⟨10, 20, 30, 40⟩,
              ([] : List Nat) ++ quadIndexPattern),
          0 + boundedGlyph.advance * boundedStyle.size) :=
  ⟨tesselate_index_pattern.1 spObject [testStyle] 50 [] (by with_unfolding_all decide),
    tesselate_index_pattern.2 spObject boundedStyle 0 ⟨0, 1, 0⟩ [([], [])] 0 'a' [] []
      boundedGlyph ⟨0, 1, 1, 0⟩ ⟨10, 20, 30, 40⟩ (by decide)
      (by with_unfolding_all decide) (by decide) (by decide)⟩

set_option maxRecDepth 8000 in
/-- Claim C2: the claim (and spec §4.3) says `tesselate` allocates one
pre-sized buffer pair per style index and completes without any
out-of-bounds access whenever the segments resolve to at least one
non-whitespace character and all style indices are in range.  The code
creates `total_glyphs_per_style` with `Vec::with_capacity(styles.len())`
— capacity, not length, so the vector is empty — and then executes
`total_glyphs_per_style[style_range.style_index] += 1` for every
non-whitespace glyph, which panics on the very first one.  At the
concrete input (one segment resolving to `"Hi"`, one style, in-range
index 0) the wrap step succeeds and `tesselate` panics (`none`). -/
theorem tesselate_counts_out_of_bounds :
    (buildLines nameObject.textSegments [testStyle] nameObject.varStorage
        nameObject.bounds.width 50).isSome = true ∧
      nameObject.tesselate [testStyle] 50 = none := by
  constructor
  · with_unfolding_all decide
  · with_unfolding_all decide

/-- Claim C9: every state-changing mutator leaves the object dirty
(`set_variable` exactly when the storage recognises the name, the
`with_*` builders unconditionally), `set_clean` clears the flag, and
`tesselate` — taking `&self` — never changes it. -/
theorem dirty_flag_contract :
    (∀ (o : TextObject) (b : Bounds), (o.withBounds b).needsUpdate = true) ∧
      (∀ (o : TextObject) (v : Bool), (o.withAutoLineBreak v).needsUpdate = true) ∧
      (∀ (o : TextObject) (v : Bool), (o.sizedToFit v).needsUpdate = true) ∧
      (∀ (o : TextObject) (a : HorizontalAlign), (o.withHAlign a).needsUpdate = true) ∧
      (∀ (o : TextObject) (a : VerticalAlign), (o.withVAlign a).needsUpdate = true) ∧
      (∀ (o : TextObject) (seg : TextSegment), (o.withTextSegment seg).needsUpdate = true) ∧
      (∀ (o : TextObject) (name : String) (v : InterpolationValue),
        (o.withVariable name v).needsUpdate = true) ∧
      (∀ (o : TextObject) (name : String) (v : InterpolationValue),
        (o.varStorage.fromName name).isSome = true →
          (o.setVariable name v).needsUpdate = true) ∧
      (∀ o : TextObject, o.setClean.needsUpdate = false) ∧
      (∀ (o : TextObject) (styles : List FontStyle) (fuel : Nat),
        (o.tesselateCall styles fuel).1.needsUpdate = o.needsUpdate) := by
  refine ⟨fun o b => rfl, fun o v => rfl, fun o v => rfl, fun o a => rfl, fun o a => rfl,
    fun o seg => rfl, fun o n v => rfl, ?_, fun o => rfl, fun o s f => rfl⟩
  intro o name v hrec
  rw [Option.isSome_iff_exists] at hrec
  obtain ⟨i, hn⟩ := hrec
  have h2 : (o.varStorage.setValueByName name v).2 = true := by
    unfold VariableStorage.setValueByName
    rw [hn]
  unfold TextObject.setVariable
  rw [if_pos h2]
  rfl

/-- Witness for C9: setting the recognised variable `"a"` marks the
object dirty. -/
theorem dirty_flag_contract_witness :
    ((TextObject.newWithStorage "x".data abStorage).varStorage.fromName "a").isSome = true ∧
      ((TextObject.newWithStorage "x".data abStorage).setVariable "a"
          (.Integer 1)).needsUpdate = true :=
  ⟨by decide,
    dirty_flag_contract.2.2.2.2.2.2.2.1 (TextObject.newWithStorage "x".data abStorage)
      "a" (.Integer 1) (by decide)⟩

end TextEngine
